import Mathlib

/-!
# cc7 `ByteRange`: a verification development

Shallow embedding of `include/cc7/ByteRange.h`.

* A pointer is the address it holds, a natural number below `2^64`; the null
  pointer is address `0`.  Pointer arithmetic and `size_type` arithmetic wrap
  modulo `2^64`.
* A `ByteRange` is its two private members `_begin` and `_end`.  The bytes it
  views live in a separate `Memory`, which no operation of the class writes.
* Methods that may raise return `Except Error _`; methods that mutate the
  receiver return the outcome together with the receiver after the call, so
  that the state left behind by a failing call can be observed.
-/

namespace cc7

/-- Number of distinct values of `size_type` and of a pointer: `2^64`. -/
def WORD : Nat := 18446744073709551616

/-- The value `2^63`, that is `PTRDIFF_MAX + 1`: the weight of the top bit of a
`size_type`. -/
def HALF : Nat := 9223372036854775808

/-- The type `cc7::byte`: an unsigned 8-bit value. -/
abbrev Byte := Fin 256

/-- The storage the views point into: one byte per address. -/
abbrev Memory := Nat → Byte

/-- The two error conditions raised through `ExceptionsWrapper`. -/
inductive Error where
  | OutOfRange
  | InvalidArgument
deriving DecidableEq, Repr

/-- The class `ByteRange`: the private members `_begin` and `_end`. -/
structure ByteRange where
  _begin : Nat
  _end : Nat
deriving DecidableEq, Repr

/-- The null pointer. -/
def nullptr : Nat := 0

/-- Pointer plus `size_type` offset (`ptr + n`), wrapping at `2^64`. -/
def ptrAdd (p n : Nat) : Nat := (p + n) % WORD

/-- Pointer minus `size_type` offset (`ptr - n`), wrapping at `2^64`. -/
def ptrSub (p n : Nat) : Nat := (p + (WORD - n % WORD)) % WORD

/-- Pointer difference `e - b` converted to `size_type`, as in
`size_type size() const { return _end - _begin; }`. -/
def ptrDiff (e b : Nat) : Nat := (e + (WORD - b % WORD)) % WORD

/-- Modelled from the spec: `cc7/detail/ExceptionsWrapper.h` is not part of
the sources at hand; `ExceptionsWrapper<T>::out_of_range()` raises the
OutOfRange condition. -/
def out_of_range {α : Type} : Except Error α := Except.error Error.OutOfRange

/-- Modelled from the spec: `cc7/detail/ExceptionsWrapper.h` is not part of
the sources at hand; `ExceptionsWrapper<T>::invalid_argument()` raises the
InvalidArgument condition. -/
def invalid_argument {α : Type} : Except Error α := Except.error Error.InvalidArgument

namespace ByteRange

/-- The protected check `_validateBeginEnd(begin, end)`. -/
def _validateBeginEnd (b e : Nat) : Except Error Unit :=
  if b > e ∨ (b = nullptr ∧ e ≠ nullptr) then invalid_argument else Except.ok ()

/-- The constructor `ByteRange()`. -/
def mk0 : ByteRange := ⟨nullptr, nullptr⟩

/-- The constructor `ByteRange(const_pointer ptr, size_type size)`. -/
def ofPtrSize (ptr size : Nat) : ByteRange :=
  ⟨ptr, if ptr ≠ nullptr then ptrAdd ptr size else 0⟩

/-- The constructor `ByteRange(const_pointer begin, const_pointer end)`: the
members are initialised, then validated; when validation raises no object
results. -/
def ofBeginEnd (b e : Nat) : Except Error ByteRange :=
  match _validateBeginEnd b e with
  | Except.ok _ => Except.ok ⟨b, e⟩
  | Except.error err => Except.error err

/-- The method `data()`. -/
def data (v : ByteRange) : Nat := v._begin

/-- The method `length()`. -/
def length (v : ByteRange) : Nat := ptrDiff v._end v._begin

/-- The method `size()`. -/
def size (v : ByteRange) : Nat := ptrDiff v._end v._begin

/-- The method `empty()`. -/
def empty (v : ByteRange) : Bool := v._begin == v._end

/-- The method `cbegin()`, which `begin()` forwards to. -/
def cbegin (v : ByteRange) : Nat := v._begin

/-- The method `cend()`, which `end()` forwards to. -/
def cend (v : ByteRange) : Nat := v._end

/-- The method `removePrefix(count)`: outcome and receiver after the call. -/
def removePrefix (v : ByteRange) (count : Nat) : Except Error Unit × ByteRange :=
  if count ≤ v.length then
    (Except.ok (), { v with _begin := ptrAdd v._begin count })
  else
    (out_of_range, v)

/-- The method `removeSuffix(count)`: outcome and receiver after the call. -/
def removeSuffix (v : ByteRange) (count : Nat) : Except Error Unit × ByteRange :=
  if count ≤ v.length then
    (Except.ok (), { v with _end := ptrSub v._end count })
  else
    (out_of_range, v)

/-- The method `subRangeFrom(from)`. -/
def subRangeFrom (v : ByteRange) (from_ : Nat) : Except Error ByteRange :=
  if from_ ≤ v.size then
    ofBeginEnd (ptrAdd v.cbegin from_) v.cend
  else
    out_of_range

/-- The method `subRangeTo(to)`. -/
def subRangeTo (v : ByteRange) (to_ : Nat) : Except Error ByteRange :=
  if to_ ≤ v.size then
    ofBeginEnd v.cbegin (ptrAdd v.cbegin to_)
  else
    out_of_range

/-- The method `subRange(from, count)`; the sum `from + count` is a
`size_type` sum and wraps at `2^64`. -/
def subRange (v : ByteRange) (from_ count : Nat) : Except Error ByteRange :=
  if from_ ≤ v.size ∧ (from_ + count) % WORD ≤ v.size then
    Except.ok (ofPtrSize (ptrAdd v.cbegin from_) count)
  else
    out_of_range

end ByteRange

/-- The C library function `memcmp(p, q, n)`: bytes are compared as unsigned
values from the lowest address on, and the result is the difference of the
first pair that differs, `0` when there is none. -/
def memcmp (m : Memory) (p q : Nat) : Nat → Int
  | 0 => 0
  | n + 1 =>
    if m p = m q then memcmp m (p + 1) (q + 1) n
    else ((m p).val : Int) - ((m q).val : Int)

namespace ByteRange

/-- The method `compare(other)`.  `(os - ts) >> (8 * sizeof(size_type) - 1)`
is the top bit of the wrapped difference, that is its quotient by `2^63`. -/
def compare (m : Memory) (self other : ByteRange) : Int :=
  let ts := self.size
  let os := other.size
  let ms := min ts os
  let res := memcmp m self.data other.data ms
  if res = 0 ∧ os ≠ ts then
    ((((os + (WORD - ts)) % WORD / HALF : Nat) : Int) * 2) - 1
  else
    res

end ByteRange

/-- The free function `operator==`. -/
def op_eq (m : Memory) (x y : ByteRange) : Bool := decide (x.compare m y = 0)

/-- The free function `operator!=`. -/
def op_ne (m : Memory) (x y : ByteRange) : Bool := decide (x.compare m y ≠ 0)

/-- The free function `operator<`. -/
def op_lt (m : Memory) (x y : ByteRange) : Bool := decide (x.compare m y < 0)

/-- The free function `operator>`. -/
def op_gt (m : Memory) (x y : ByteRange) : Bool := decide (x.compare m y > 0)

/-- The free function `operator>=`. -/
def op_ge (m : Memory) (x y : ByteRange) : Bool := decide (x.compare m y ≥ 0)

/-- The free function `operator<=`. -/
def op_le (m : Memory) (x y : ByteRange) : Bool := decide (x.compare m y ≤ 0)

/-! ## Specification-side notions -/

/-- A valid view: invariant I1 (`_begin ≤ _end`), invariant I2 (a null
`_begin` forces a null `_end`), both bounds are pointer values, and the span
`_end - _begin` is representable in `ptrdiff_t`, the type of the pointer
subtraction in `size()` (no object is larger than `PTRDIFF_MAX` bytes). -/
def Valid (v : ByteRange) : Prop :=
  v._begin ≤ v._end ∧ (v._begin = nullptr → v._end = nullptr) ∧ v._end < WORD ∧
    v._end - v._begin < HALF

instance (v : ByteRange) : Decidable (Valid v) :=
  inferInstanceAs (Decidable (_ ∧ _ ∧ _ ∧ _))

/-- The byte at offset `i` of the storage viewed by `v`. -/
def byteAt (m : Memory) (v : ByteRange) (i : Nat) : Byte := m (v._begin + i)

/-- The `n` bytes stored from address `p` on. -/
def readBytes (m : Memory) (p : Nat) : Nat → List Byte
  | 0 => []
  | n + 1 => m p :: readBytes m (p + 1) n

/-- The byte sequence of a view: its `size()` bytes from `_begin` on. -/
def contents (m : Memory) (v : ByteRange) : List Byte := readBytes m v._begin v.size

/-- Lexicographic three-way comparison of two byte sequences read as unsigned
bytes: `-1`, `0` or `1`; a proper prefix sorts first. -/
def lexCompare : List Byte → List Byte → Int
  | [], [] => 0
  | [], _ :: _ => -1
  | _ :: _, [] => 1
  | x :: xs, y :: ys =>
    if x.val < y.val then -1 else if y.val < x.val then 1 else lexCompare xs ys

/-! ## Remaining constructors, `assign`, element access, iterators -/

/-- A `std::string` object: the address `data()` of its character buffer and
the characters it holds (NUL bytes allowed); the terminator is not part of
`chars`. -/
structure StdString where
  data : Nat
  chars : List Byte
deriving DecidableEq, Repr

namespace StdString

/-- The method `std::string::length()`. -/
def length (s : StdString) : Nat := s.chars.length

/-- The method `std::string::size()`. -/
def size (s : StdString) : Nat := s.chars.length

end StdString

namespace ByteRange

/-- The constructor template `ByteRange(_Iterator begin, _Iterator end)`; an
iterator is given by the address `&(*it)` of the element it designates.  The
members are initialised, then validated. -/
def ofIter (b e : Nat) : Except Error ByteRange :=
  match _validateBeginEnd b e with
  | Except.ok _ => Except.ok ⟨b, e⟩
  | Except.error err => Except.error err

/-- The copy constructor `ByteRange(const ByteRange & r)`. -/
def copy (r : ByteRange) : ByteRange := ⟨r.cbegin, r.cend⟩

/-- The constructor `ByteRange(const void * ptr, size_type size)`. -/
def ofVoidPtrSize (ptr size : Nat) : ByteRange :=
  ⟨ptr, if ptr ≠ nullptr then ptrAdd ptr size else nullptr⟩

/-- The constructor `ByteRange(const std::string & str)`. -/
def ofString (str : StdString) : ByteRange :=
  ⟨str.data, ptrAdd str.data str.length⟩

/-- The constructor `ByteRange(const char * c_str)`; `len` is the value the C
library returns for `strlen(c_str)`. -/
def ofCStr (c_str len : Nat) : ByteRange :=
  ⟨c_str, if c_str ≠ nullptr then ptrAdd c_str len else nullptr⟩

/-- The method `assign(const_pointer begin, const_pointer end)`: the pair is
validated, then committed.  Outcome and receiver after the call. -/
def assign (v : ByteRange) (b e : Nat) : Except Error Unit × ByteRange :=
  match _validateBeginEnd b e with
  | Except.ok _ => (Except.ok (), ⟨b, e⟩)
  | Except.error err => (Except.error err, v)

/-- The method `assign(const_pointer ptr, size_type size)`: the receiver after
the call. -/
def assignPtrSize (_v : ByteRange) (ptr size : Nat) : ByteRange :=
  ⟨ptr, if ptr ≠ nullptr then ptrAdd ptr size else nullptr⟩

/-- The method `assign(const ByteRange & r)`: the receiver after the call. -/
def assignRange (_v : ByteRange) (r : ByteRange) : ByteRange := ⟨r.cbegin, r.cend⟩

/-- The method `assign(const void * ptr, size_type size)`: the receiver after
the call. -/
def assignVoidPtrSize (_v : ByteRange) (ptr size : Nat) : ByteRange :=
  ⟨ptr, if ptr ≠ nullptr then ptrAdd ptr size else nullptr⟩

/-- The method `assign(const std::string & str)`: the receiver after the
call. -/
def assignString (_v : ByteRange) (str : StdString) : ByteRange :=
  ⟨str.data, ptrAdd str.data str.size⟩

/-- The method `assign(const char * c_str)`: the receiver after the call;
`len` is the value the C library returns for `strlen(c_str)`. -/
def assignCStr (_v : ByteRange) (c_str len : Nat) : ByteRange :=
  ⟨c_str, if c_str ≠ nullptr then ptrAdd c_str len else nullptr⟩

/-- The method `assign(const char * c_str, size_type size)`: the receiver
after the call. -/
def assignCStrSize (_v : ByteRange) (c_str size : Nat) : ByteRange :=
  ⟨c_str, if c_str ≠ nullptr then ptrAdd c_str size else nullptr⟩

/-- The method template `assign(_Iterator begin, _Iterator end)`: both members
are written first and `_validateBeginEnd(_begin, _end)` runs afterwards.
Outcome and receiver after the call. -/
def assignIter (_v : ByteRange) (b e : Nat) : Except Error Unit × ByteRange :=
  (_validateBeginEnd b e, ⟨b, e⟩)

/-- The method `clear()`: the receiver after the call. -/
def clear (_v : ByteRange) : ByteRange := ⟨nullptr, nullptr⟩

/-- The method `capacity()`. -/
def capacity (v : ByteRange) : Nat := v.size

/-- The method `max_size()`. -/
def max_size (v : ByteRange) : Nat := v.size

/-- The method `operator[](index)`.  The value behind
`ExceptionsWrapper<value_type>::forbidden_value()`, declared in a header that
is not at hand, is the parameter `forbidden_value`. -/
def op_index (forbidden_value : Byte) (m : Memory) (v : ByteRange) (index : Nat) : Byte :=
  if index < v.size then m (ptrAdd v._begin index) else forbidden_value

/-- The method `at(index)`. -/
def at_ (m : Memory) (v : ByteRange) (index : Nat) : Except Error Byte :=
  if index < v.size then Except.ok (m (ptrAdd v._begin index)) else out_of_range

/-- The method `crbegin()`: a `std::reverse_iterator`, given by its base
pointer. -/
def crbegin (v : ByteRange) : Nat := v._end

/-- The method `crend()`: a `std::reverse_iterator`, given by its base
pointer. -/
def crend (v : ByteRange) : Nat := v._end

/-- The method `rbegin()`. -/
def rbegin (v : ByteRange) : Nat := v.crbegin

/-- The method `rend()`. -/
def rend (v : ByteRange) : Nat := v.crend

end ByteRange

/-- The free function `CopyToString(range)`: the characters of the string
built by `std::string(ptr, n)`, a copy of the `n` bytes at `ptr`. -/
def CopyToString (m : Memory) (range : ByteRange) : List Byte :=
  readBytes m range.data range.size

/-- The free function `MakeRange(const std::string & str)`. -/
def MakeRange (str : StdString) : ByteRange := ByteRange.ofString str

/-- The free function `MakeRange(const char * str)`; `len` is the value the C
library returns for `strlen(str)`. -/
def MakeRangeCStr (str len : Nat) : ByteRange := ByteRange.ofCStr str len

/-! ## Further specification-side notions -/

/-- Invariants I1 (`start <= end`) and I2 (a null start forces a null end). -/
def Inv (v : ByteRange) : Prop :=
  v._begin ≤ v._end ∧ (v._begin = nullptr → v._end = nullptr)

instance (v : ByteRange) : Decidable (Inv v) :=
  inferInstanceAs (Decidable (_ ∧ _))

/-- The storage holds the characters of the string `s` in its buffer: the
character at index `i` is the byte at address `data() + i`. -/
def Stored (m : Memory) (s : StdString) : Prop :=
  ∀ i, i < s.chars.length → s.chars[i]? = some (m (s.data + i))

instance (m : Memory) (s : StdString) : Decidable (Stored m s) :=
  inferInstanceAs (Decidable (∀ i, i < s.chars.length → _))

/-- The loop `for (it = first; it != last; ++it) visit(*it)` over forward
iterators (pointers): the bytes visited, or `none` when `fuel` steps do not
reach `last`. -/
def visitForward (m : Memory) (it last : Nat) : Nat → Option (List Byte)
  | 0 => if it = last then some [] else none
  | fuel + 1 =>
    if it = last then some []
    else (visitForward m (ptrAdd it 1) last fuel).map (fun rest => m it :: rest)

/-- The loop `for (it = first; it != last; ++it) visit(*it)` over
`std::reverse_iterator`s given by their base pointers: `*it` is the byte
before the base and `++it` moves the base back by one.  The bytes visited, or
`none` when `fuel` steps do not reach `last`. -/
def visitReverse (m : Memory) (it last : Nat) : Nat → Option (List Byte)
  | 0 => if it = last then some [] else none
  | fuel + 1 =>
    if it = last then some []
    else (visitReverse m (ptrSub it 1) last fuel).map (fun rest => m (ptrSub it 1) :: rest)

/-- The composition the one-sided sub-ranges give: `subRangeFrom(from)`, then
`subRangeTo(count)` on its result. -/
def subRangeComposed (v : ByteRange) (from_ count : Nat) : Except Error ByteRange :=
  match v.subRangeFrom from_ with
  | Except.ok r => r.subRangeTo count
  | Except.error err => Except.error err

/-! ## Example storage -/

/-- Storage holding `"HelloWorld"` at addresses 1000..1009, `"World"` at
2000..2004, the bytes `01` at 3000 and `01 02` at 3100..3101. -/
def exampleMemory : Memory := fun a =>
  if a = 1000 then 72 else if a = 1001 then 101 else if a = 1002 then 108
  else if a = 1003 then 108 else if a = 1004 then 111 else if a = 1005 then 87
  else if a = 1006 then 111 else if a = 1007 then 114 else if a = 1008 then 108
  else if a = 1009 then 100
  else if a = 2000 then 87 else if a = 2001 then 111 else if a = 2002 then 114
  else if a = 2003 then 108 else if a = 2004 then 100
  else if a = 3000 then 1 else if a = 3100 then 1 else if a = 3101 then 2
  else 0

end cc7

namespace cc7

/-! ## Arithmetic of valid views -/

theorem size_of_valid {v : ByteRange} (h : Valid v) : v.size = v._end - v._begin := by
  obtain ⟨h1, _, h3, _⟩ := h
  simp only [ByteRange.size, ptrDiff, WORD] at *
  omega

theorem size_lt_half {v : ByteRange} (h : Valid v) : v.size < HALF := by
  rw [size_of_valid h]; exact h.2.2.2

theorem length_eq_size (v : ByteRange) : v.length = v.size := rfl

/-- The size tie-break of `compare` on sizes below `2^63`. -/
theorem tiebreak_sign {ts os : Nat} (ht : ts < HALF) (ho : os < HALF) (hne : os ≠ ts) :
    ((((os + (WORD - ts)) % WORD / HALF : Nat) : Int) * 2) - 1
      = if ts < os then -1 else 1 := by
  simp only [WORD, HALF] at *
  split <;> omega

/-! ## `memcmp` -/

theorem memcmp_eq_zero_iff (m : Memory) (n : Nat) :
    ∀ p q, memcmp m p q n = 0 ↔ ∀ i, i < n → m (p + i) = m (q + i) := by
  induction n with
  | zero => intro p q; simp [memcmp]
  | succ n ih =>
    intro p q
    by_cases h : m p = m q
    · simp only [memcmp, h, if_true]
      rw [ih]
      constructor
      · intro hall i hi
        cases i with
        | zero => simpa using h
        | succ i =>
          have := hall i (by omega)
          simpa [Nat.add_assoc, Nat.add_comm 1 i] using this
      · intro hall i hi
        have := hall (i + 1) (by omega)
        simpa [Nat.add_assoc, Nat.add_comm 1 i] using this
    · simp only [memcmp, h, if_false]
      constructor
      · intro h0
        exfalso; apply h; apply Fin.ext
        omega
      · intro hall
        exact absurd (by simpa using hall 0 (by omega)) h

theorem memcmp_first_diff (m : Memory) (n : Nat) :
    ∀ p q k, k < n → (∀ j, j < k → m (p + j) = m (q + j)) → m (p + k) ≠ m (q + k) →
      memcmp m p q n = ((m (p + k)).val : Int) - ((m (q + k)).val : Int) := by
  induction n with
  | zero => intro p q k hk; omega
  | succ n ih =>
    intro p q k hk hpre hdiff
    cases k with
    | zero =>
      have h : m p ≠ m q := by simpa using hdiff
      simp [memcmp, h]
    | succ k =>
      have h : m p = m q := by simpa using hpre 0 (by omega)
      simp only [memcmp, h, if_true]
      have := ih (p + 1) (q + 1) k (by omega)
        (fun j hj => by
          have := hpre (j + 1) (by omega)
          simpa [Nat.add_assoc, Nat.add_comm 1 j] using this)
        (by simpa [Nat.add_assoc, Nat.add_comm 1 k] using hdiff)
      simpa [Nat.add_assoc, Nat.add_comm 1 k] using this

/-- Three-way sign of an integer as `-1`, `0`, `1`. -/
theorem sign_byte_diff (x y : Byte) :
    Int.sign ((x.val : Int) - (y.val : Int))
      = if x.val < y.val then -1 else if y.val < x.val then 1 else 0 := by
  split
  · exact Int.sign_eq_neg_one_of_neg (by omega)
  · split
    · exact Int.sign_eq_one_of_pos (by omega)
    · have : (x.val : Int) - (y.val : Int) = 0 := by omega
      rw [this]; rfl

/-- The lexicographic comparison of two stored byte runs, through `memcmp`
over the common length and the lengths. -/
theorem lexCompare_readBytes (m : Memory) (a : Nat) :
    ∀ p q b, lexCompare (readBytes m p a) (readBytes m q b)
      = if memcmp m p q (min a b) = 0 then
          (if a < b then -1 else if b < a then 1 else 0)
        else Int.sign (memcmp m p q (min a b)) := by
  induction a with
  | zero =>
    intro p q b
    cases b with
    | zero => simp [readBytes, lexCompare, memcmp]
    | succ b => simp [readBytes, lexCompare, memcmp]
  | succ a ih =>
    intro p q b
    cases b with
    | zero => simp [readBytes, lexCompare, memcmp]
    | succ b =>
      have hmin : min (a + 1) (b + 1) = min a b + 1 := by omega
      rw [hmin]
      simp only [readBytes, lexCompare, memcmp]
      by_cases h : m p = m q
      · have h1 : ¬ (m p).val < (m q).val := by rw [h]; omega
        have h2 : ¬ (m q).val < (m p).val := by rw [h]; omega
        rw [if_neg h1, if_neg h2, if_pos h, ih]
        simp only [Nat.add_lt_add_iff_right]
      · have hv : (m p).val ≠ (m q).val := fun hv => h (Fin.ext hv)
        have hd : ((m p).val : Int) - ((m q).val : Int) ≠ 0 := by omega
        simp only [h, if_false, hd]
        rw [sign_byte_diff]
        split
        · rfl
        · split
          · rfl
          · omega

/-- The sign of `compare` on valid views is the lexicographic comparison of
their contents. -/
theorem sign_compare_eq_lex (m : Memory) {a b : ByteRange} (ha : Valid a) (hb : Valid b) :
    Int.sign (a.compare m b) = lexCompare (contents m a) (contents m b) := by
  have hta := size_lt_half ha
  have htb := size_lt_half hb
  unfold contents
  rw [lexCompare_readBytes]
  simp only [ByteRange.compare, ByteRange.data]
  by_cases h0 : memcmp m a._begin b._begin (min a.size b.size) = 0
  · simp only [h0, true_and, if_true]
    by_cases hne : b.size = a.size
    · simp [hne]
    · simp only [hne, not_false_eq_true, ne_eq, if_true]
      rw [tiebreak_sign hta htb hne]
      split
      · rfl
      · have : b.size < a.size := by omega
        simp [this]
  · simp [h0]

end cc7

namespace cc7

/-! ## Order properties of the lexicographic comparison -/

theorem lexCompare_self (l : List Byte) : lexCompare l l = 0 := by
  induction l with
  | nil => rfl
  | cons x xs ih => simp [lexCompare, ih]

theorem lexCompare_swap (l₁ : List Byte) : ∀ l₂, lexCompare l₁ l₂ = - lexCompare l₂ l₁ := by
  induction l₁ with
  | nil => intro l₂; cases l₂ <;> simp [lexCompare]
  | cons x xs ih =>
    intro l₂
    cases l₂ with
    | nil => simp [lexCompare]
    | cons y ys =>
      simp only [lexCompare]
      rw [ih ys]
      split
      · rename_i h
        have : ¬ y.val < x.val := by omega
        simp [this]
      · split
        · rfl
        · rfl

theorem lexCompare_range (l₁ : List Byte) :
    ∀ l₂, lexCompare l₁ l₂ = -1 ∨ lexCompare l₁ l₂ = 0 ∨ lexCompare l₁ l₂ = 1 := by
  induction l₁ with
  | nil => intro l₂; cases l₂ <;> simp [lexCompare]
  | cons x xs ih =>
    intro l₂
    cases l₂ with
    | nil => simp [lexCompare]
    | cons y ys =>
      simp only [lexCompare]
      split
      · simp
      · split
        · simp
        · exact ih ys

theorem lexCompare_trans_le (l₁ : List Byte) :
    ∀ l₂ l₃, lexCompare l₁ l₂ ≤ 0 → lexCompare l₂ l₃ ≤ 0 → lexCompare l₁ l₃ ≤ 0 := by
  induction l₁ with
  | nil => intro l₂ l₃ _ _; cases l₃ <;> simp [lexCompare]
  | cons x xs ih =>
    intro l₂ l₃ h12 h23
    cases l₂ with
    | nil => simp [lexCompare] at h12
    | cons y ys =>
      cases l₃ with
      | nil => simp [lexCompare] at h23
      | cons z zs =>
        simp only [lexCompare] at h12 h23 ⊢
        by_cases hxy : x.val < y.val
        · by_cases hyz : y.val < z.val
          · have : x.val < z.val := by omega
            simp [this]
          · by_cases hzy : z.val < y.val
            · simp [hyz, hzy] at h23
            · have : x.val < z.val := by omega
              simp [this]
        · by_cases hyx : y.val < x.val
          · simp [hxy, hyx] at h12
          · simp only [hxy, hyx, if_false] at h12
            by_cases hyz : y.val < z.val
            · have : x.val < z.val := by omega
              simp [this]
            · by_cases hzy : z.val < y.val
              · simp [hyz, hzy] at h23
              · simp only [hyz, hzy, if_false] at h23
                have h1 : ¬ x.val < z.val := by omega
                have h2 : ¬ z.val < x.val := by omega
                simp only [h1, h2, if_false]
                exact ih ys zs h12 h23

theorem lexCompare_eq_zero (l₁ : List Byte) : ∀ l₂, lexCompare l₁ l₂ = 0 → l₁ = l₂ := by
  induction l₁ with
  | nil => intro l₂ h; cases l₂ <;> simp [lexCompare] at h ⊢
  | cons x xs ih =>
    intro l₂ h
    cases l₂ with
    | nil => simp [lexCompare] at h
    | cons y ys =>
      simp only [lexCompare] at h
      by_cases hxy : x.val < y.val
      · simp [hxy] at h
      · by_cases hyx : y.val < x.val
        · simp [hxy, hyx] at h
        · simp only [hxy, hyx, if_false] at h
          have : x = y := Fin.ext (by omega)
          rw [this, ih ys h]

theorem lexCompare_trans_lt (l₁ l₂ l₃ : List Byte)
    (h12 : lexCompare l₁ l₂ < 0) (h23 : lexCompare l₂ l₃ < 0) : lexCompare l₁ l₃ < 0 := by
  have hle := lexCompare_trans_le l₁ l₂ l₃ (by omega) (by omega)
  rcases lt_or_eq_of_le hle with h | h
  · exact h
  · exfalso
    have h13 := lexCompare_eq_zero _ _ h
    subst h13
    have := lexCompare_swap l₁ l₂
    omega

theorem lexCompare_append_left (l : List Byte) (t : List Byte) (ht : t ≠ []) :
    lexCompare l (l ++ t) = -1 := by
  induction l with
  | nil => cases t with
    | nil => exact absurd rfl ht
    | cons y ys => rfl
  | cons x xs ih => simp [lexCompare, ih]

theorem sign_nonpos_iff (x : Int) : Int.sign x ≤ 0 ↔ x ≤ 0 := by
  rcases Int.lt_trichotomy x 0 with h | h | h
  · rw [Int.sign_eq_neg_one_iff_neg.mpr h]; omega
  · subst h; simp
  · rw [Int.sign_eq_one_iff_pos.mpr h]; omega

theorem sign_neg_iff (x : Int) : Int.sign x < 0 ↔ x < 0 := by
  rcases Int.lt_trichotomy x 0 with h | h | h
  · rw [Int.sign_eq_neg_one_iff_neg.mpr h]; omega
  · subst h; simp
  · rw [Int.sign_eq_one_iff_pos.mpr h]; omega

theorem readBytes_length (m : Memory) (n : Nat) : ∀ p, (readBytes m p n).length = n := by
  induction n with
  | zero => intro p; rfl
  | succ n ih => intro p; simp [readBytes, ih]

theorem contents_length (m : Memory) (v : ByteRange) : (contents m v).length = v.size :=
  readBytes_length m _ _

theorem readBytes_getElem? (m : Memory) (n : Nat) :
    ∀ p i, i < n → (readBytes m p n)[i]? = some (m (p + i)) := by
  induction n with
  | zero => intro p i hi; omega
  | succ n ih =>
    intro p i hi
    cases i with
    | zero => simp [readBytes]
    | succ i =>
      simp only [readBytes, List.getElem?_cons_succ]
      rw [ih (p + 1) i (by omega)]
      simp [Nat.add_assoc, Nat.add_comm 1 i]

/-- Two views have the same contents exactly when they have the same size and
the same byte at every offset. -/
theorem contents_eq_iff (m : Memory) (x y : ByteRange) :
    contents m x = contents m y ↔
      x.size = y.size ∧ ∀ i, i < x.size → byteAt m x i = byteAt m y i := by
  constructor
  · intro h
    have hs : x.size = y.size := by
      rw [← contents_length m x, ← contents_length m y, h]
    refine ⟨hs, fun i hi => ?_⟩
    have h1 := readBytes_getElem? m x.size x._begin i hi
    have h2 := readBytes_getElem? m y.size y._begin i (by omega)
    unfold contents at h
    rw [h, h2] at h1
    exact (Option.some.inj h1).symm
  · rintro ⟨hs, hb⟩
    apply List.ext_getElem?
    intro i
    by_cases hi : i < x.size
    · unfold contents
      rw [readBytes_getElem? m x.size x._begin i hi,
        readBytes_getElem? m y.size y._begin i (by omega)]
      exact congrArg some (hb i hi)
    · rw [List.getElem?_eq_none (by rw [contents_length]; omega),
        List.getElem?_eq_none (by rw [contents_length]; omega)]

/-- The value of `compare` is zero exactly when `memcmp` over the common
length is zero and the sizes agree; no validity is needed. -/
theorem compare_eq_zero_iff (m : Memory) (x y : ByteRange) :
    x.compare m y = 0 ↔
      memcmp m x._begin y._begin (min x.size y.size) = 0 ∧ y.size = x.size := by
  simp only [ByteRange.compare, ByteRange.data]
  by_cases h0 : memcmp m x._begin y._begin (min x.size y.size) = 0
  · by_cases hne : y.size = x.size
    · simp [h0, hne]
    · simp only [h0, hne, not_false_eq_true, ne_eq, and_self, if_true, true_and, iff_false]
      omega
  · simp [h0]

end cc7

namespace cc7

/-! ## Ordering protocol -/

/-- C1: for valid views `a` and `b` the sign of `a.compare(b)` is the sign of
the lexicographic comparison of their byte sequences read as unsigned bytes:
the first differing byte among the first `min(a.size(), b.size())` bytes
decides, and when those are all equal the lengths decide (negative when `a`
is shorter, zero when equal, positive when `a` is longer). -/
theorem compare_sign_lexicographic (m : Memory) (a b : ByteRange)
    (ha : Valid a) (hb : Valid b) :
    (∀ k, k < min a.size b.size →
        (∀ j, j < k → byteAt m a j = byteAt m b j) → byteAt m a k ≠ byteAt m b k →
        Int.sign (a.compare m b)
          = Int.sign (((byteAt m a k).val : Int) - ((byteAt m b k).val : Int))) ∧
    ((∀ j, j < min a.size b.size → byteAt m a j = byteAt m b j) →
        Int.sign (a.compare m b) = Int.sign ((a.size : Int) - (b.size : Int))) ∧
    Int.sign (a.compare m b) = lexCompare (contents m a) (contents m b) := by
  refine ⟨?_, ?_, sign_compare_eq_lex m ha hb⟩
  · intro k hk hpre hdiff
    have hm := memcmp_first_diff m (min a.size b.size) a._begin b._begin k hk hpre hdiff
    have hv : ((byteAt m a k).val : Int) - ((byteAt m b k).val : Int) ≠ 0 := by
      intro h0
      exact hdiff (Fin.ext (by omega))
    simp only [byteAt] at hv ⊢
    simp only [ByteRange.compare, ByteRange.data, hm]
    rw [if_neg (fun h => hv h.1)]
  · intro hall
    have h0 : memcmp m a._begin b._begin (min a.size b.size) = 0 :=
      (memcmp_eq_zero_iff m _ _ _).mpr hall
    have hta := size_lt_half ha
    have htb := size_lt_half hb
    simp only [ByteRange.compare, ByteRange.data, h0, true_and]
    by_cases hne : b.size = a.size
    · simp [hne]
    · simp only [hne, not_false_eq_true, ne_eq, if_true]
      rw [tiebreak_sign hta htb hne]
      split
      · rename_i hlt
        have h1 : ((a.size : Int) - (b.size : Int)) < 0 := by omega
        rw [Int.sign_eq_neg_one_iff_neg.mpr h1]; rfl
      · rename_i hlt
        have h1 : 0 < ((a.size : Int) - (b.size : Int)) := by omega
        rw [Int.sign_eq_one_iff_pos.mpr h1]; rfl

/-- Witness of C1: the one-byte view `{01}` against the two-byte view
`{01, 02}` of the example storage. -/
theorem compare_sign_lexicographic_witness :
    Valid ⟨3000, 3001⟩ ∧ Valid ⟨3100, 3102⟩ ∧
      Int.sign ((ByteRange.mk 3000 3001).compare exampleMemory ⟨3100, 3102⟩)
        = lexCompare (contents exampleMemory ⟨3000, 3001⟩)
            (contents exampleMemory ⟨3100, 3102⟩) :=
  ⟨by decide, by decide,
    (compare_sign_lexicographic exampleMemory ⟨3000, 3001⟩ ⟨3100, 3102⟩
      (by decide) (by decide)).2.2⟩

/-- C2: `compare` is a total order on valid views: `compare(v, v) == 0`; the
sign of `compare(u, v)` is the opposite of the sign of `compare(v, u)`;
`compare(u, v) <= 0` and `compare(v, w) <= 0` imply `compare(u, w) <= 0`, and
likewise for the strict order of `operator<`; any two views are comparable. -/
theorem compare_total_order (m : Memory) (u v w : ByteRange)
    (hu : Valid u) (hv : Valid v) (hw : Valid w) :
    v.compare m v = 0 ∧
    Int.sign (u.compare m v) = - Int.sign (v.compare m u) ∧
    (u.compare m v ≤ 0 → v.compare m w ≤ 0 → u.compare m w ≤ 0) ∧
    (op_lt m u v = true → op_lt m v w = true → op_lt m u w = true) ∧
    (u.compare m v ≤ 0 ∨ v.compare m u ≤ 0) := by
  have hswap : Int.sign (u.compare m v) = - Int.sign (v.compare m u) := by
    rw [sign_compare_eq_lex m hu hv, sign_compare_eq_lex m hv hu]
    exact lexCompare_swap _ _
  refine ⟨?_, hswap, ?_, ?_, ?_⟩
  rotate_left 3
  · rw [← sign_nonpos_iff (u.compare m v), ← sign_nonpos_iff (v.compare m u)]
    omega
  · rw [compare_eq_zero_iff]
    exact ⟨(memcmp_eq_zero_iff m _ _ _).mpr (fun _ _ => rfl), rfl⟩
  · intro h1 h2
    rw [← sign_nonpos_iff, sign_compare_eq_lex m hu hv] at h1
    rw [← sign_nonpos_iff, sign_compare_eq_lex m hv hw] at h2
    rw [← sign_nonpos_iff, sign_compare_eq_lex m hu hw]
    exact lexCompare_trans_le _ _ _ h1 h2
  · simp only [op_lt, decide_eq_true_eq]
    intro h1 h2
    rw [← sign_neg_iff, sign_compare_eq_lex m hu hv] at h1
    rw [← sign_neg_iff, sign_compare_eq_lex m hv hw] at h2
    rw [← sign_neg_iff, sign_compare_eq_lex m hu hw]
    exact lexCompare_trans_lt _ _ _ h1 h2

/-- Witness of C2: `"World"`, `{01}` and `{01, 02}` of the example storage. -/
theorem compare_total_order_witness :
    Valid ⟨3000, 3001⟩ ∧ Valid ⟨3100, 3102⟩ ∧ Valid ⟨2000, 2005⟩ ∧
      Int.sign ((ByteRange.mk 3000 3001).compare exampleMemory ⟨3100, 3102⟩)
        = - Int.sign ((ByteRange.mk 3100 3102).compare exampleMemory ⟨3000, 3001⟩) :=
  ⟨by decide, by decide, by decide,
    (compare_total_order exampleMemory ⟨3000, 3001⟩ ⟨3100, 3102⟩ ⟨2000, 2005⟩
      (by decide) (by decide) (by decide)).2.1⟩

/-- C3: `x == y` holds exactly when `x.size() == y.size()` and every byte of
`x` equals the byte of `y` at the same index, wherever the two views point;
`x != y` is the negation of `x == y`. -/
theorem op_eq_iff_same_bytes (m : Memory) (x y : ByteRange) :
    (op_eq m x y = true ↔
      x.size = y.size ∧ ∀ i, i < x.size → byteAt m x i = byteAt m y i) ∧
    op_ne m x y = !op_eq m x y := by
  constructor
  · simp only [op_eq, decide_eq_true_eq]
    rw [compare_eq_zero_iff, memcmp_eq_zero_iff]
    constructor
    · rintro ⟨hb, hs⟩
      refine ⟨hs.symm, fun i hi => hb i (by rw [hs]; simpa using hi)⟩
    · rintro ⟨hs, hb⟩
      refine ⟨fun i hi => hb i (by rw [hs] at hi; simp at hi; omega), hs.symm⟩
  · simp [op_ne, op_eq]

/-- C4: shorter-prefix rule: when the bytes of the valid view `a` are a proper
prefix of the bytes of the valid view `b`, `a.compare(b) < 0` and
`b.compare(a) > 0`. -/
theorem compare_shorter_prefix_rule (m : Memory) (a b : ByteRange)
    (ha : Valid a) (hb : Valid b)
    (hpre : contents m a <+: contents m b) (hne : contents m a ≠ contents m b) :
    a.compare m b < 0 ∧ b.compare m a > 0 := by
  obtain ⟨t, ht⟩ := hpre
  have htne : t ≠ [] := by
    intro h
    apply hne
    rw [← ht, h, List.append_nil]
  have h1 : lexCompare (contents m a) (contents m b) = -1 := by
    rw [← ht]; exact lexCompare_append_left _ _ htne
  have h2 : lexCompare (contents m b) (contents m a) = 1 := by
    rw [lexCompare_swap, h1]; rfl
  constructor
  · rw [← sign_neg_iff, sign_compare_eq_lex m ha hb, h1]; decide
  · have : Int.sign (b.compare m a) = 1 := by rw [sign_compare_eq_lex m hb ha, h2]
    exact Int.sign_eq_one_iff_pos.mp this

/-- Witness of C4: `compare({0x01}, {0x01, 0x02}) < 0` and
`compare({0x01, 0x02}, {0x01}) > 0`. -/
theorem compare_shorter_prefix_rule_witness :
    contents exampleMemory ⟨3000, 3001⟩ = [1] ∧
    contents exampleMemory ⟨3100, 3102⟩ = [1, 2] ∧
    (ByteRange.mk 3000 3001).compare exampleMemory ⟨3100, 3102⟩ < 0 ∧
    (ByteRange.mk 3100 3102).compare exampleMemory ⟨3000, 3001⟩ > 0 :=
  ⟨by decide, by decide,
    compare_shorter_prefix_rule exampleMemory ⟨3000, 3001⟩ ⟨3100, 3102⟩
      (by decide) (by decide) (by decide) (by decide)⟩

end cc7

namespace cc7

/-! ## Sub-range operations -/

theorem readBytes_append (m : Memory) (a : Nat) :
    ∀ p b, readBytes m p (a + b) = readBytes m p a ++ readBytes m (p + a) b := by
  induction a with
  | zero => intro p b; simp [readBytes]
  | succ a ih =>
    intro p b
    have h : a + 1 + b = (a + b) + 1 := by omega
    rw [h]
    simp only [readBytes, List.cons_append]
    rw [ih (p + 1) b]
    have h2 : p + 1 + a = p + (a + 1) := by omega
    rw [h2]

theorem readBytes_drop (m : Memory) (p n k : Nat) (h : k ≤ n) :
    (readBytes m p n).drop k = readBytes m (p + k) (n - k) := by
  have hn : n = k + (n - k) := by omega
  conv_lhs => rw [hn, readBytes_append]
  rw [List.drop_append_of_le_length (by rw [readBytes_length])]
  rw [List.drop_of_length_le (by rw [readBytes_length])]
  simp

theorem readBytes_take (m : Memory) (p n k : Nat) (h : k ≤ n) :
    (readBytes m p n).take k = readBytes m p k := by
  have hn : n = k + (n - k) := by omega
  conv_lhs => rw [hn, readBytes_append]
  rw [List.take_append_of_le_length (by rw [readBytes_length])]
  rw [List.take_of_length_le (by rw [readBytes_length])]

theorem validate_ok {b e : Nat} (h1 : b ≤ e) (h2 : b = nullptr → e = nullptr) :
    ByteRange._validateBeginEnd b e = Except.ok () := by
  unfold ByteRange._validateBeginEnd
  rw [if_neg]
  rintro (h | ⟨h, h'⟩)
  · omega
  · exact h' (h2 h)

theorem ofBeginEnd_ok {b e : Nat} (h1 : b ≤ e) (h2 : b = nullptr → e = nullptr) :
    ByteRange.ofBeginEnd b e = Except.ok ⟨b, e⟩ := by
  unfold ByteRange.ofBeginEnd
  rw [validate_ok h1 h2]

/-- C5: on the 5-byte view over addresses 1000..1004, `subRange(3, 2^64 - 1)`
has `from + count > size()` as mathematical integers, yet the `size_type` sum
wraps to `2`, the call does not fail, and it returns the view `[1003, 1002)`,
which `_validateBeginEnd` rejects; `subRange(3, 10)` on the same view does
fail with OutOfRange. -/
theorem subRange_wrapped_sum_accepted :
    Valid ⟨1000, 1005⟩ ∧ (ByteRange.mk 1000 1005).size = 5 ∧
    18446744073709551615 < WORD ∧
    3 + 18446744073709551615 > (ByteRange.mk 1000 1005).size ∧
    (ByteRange.mk 1000 1005).subRange 3 18446744073709551615 = Except.ok ⟨1003, 1002⟩ ∧
    ByteRange._validateBeginEnd 1003 1002 = Except.error Error.InvalidArgument ∧
    (ByteRange.mk 1000 1005).subRange 3 10 = Except.error Error.OutOfRange :=
  ⟨by decide, by decide, by decide, by decide, rfl, rfl, rfl⟩

/-- C6: for a valid view `v` and `from + count <= v.size()`, `subRange(from,
count)` returns without error the view `[v.begin + from, v.begin + from +
count)`, which lies within `v`, has size `count` and whose `i`-th byte is
`v[from + i]`; `from == v.size()` with `count == 0` gives the empty view at
the end boundary of `v`. -/
theorem subRange_in_range (m : Memory) (v : ByteRange) (from_ count : Nat)
    (hv : Valid v) (h : from_ + count ≤ v.size) :
    from_ ≤ v.size ∧
    v.subRange from_ count = Except.ok ⟨v._begin + from_, v._begin + from_ + count⟩ ∧
    v._begin ≤ v._begin + from_ ∧ v._begin + from_ + count ≤ v._end ∧
    Valid ⟨v._begin + from_, v._begin + from_ + count⟩ ∧
    (ByteRange.mk (v._begin + from_) (v._begin + from_ + count)).size = count ∧
    (∀ i, i < count →
      byteAt m ⟨v._begin + from_, v._begin + from_ + count⟩ i = byteAt m v (from_ + i)) ∧
    contents m ⟨v._begin + from_, v._begin + from_ + count⟩
      = ((contents m v).drop from_).take count ∧
    (from_ = v.size → count = 0 →
      v.subRange from_ count = Except.ok ⟨v._end, v._end⟩ ∧
      (ByteRange.mk v._end v._end).empty = true) := by
  have hs := size_of_valid hv
  have hhalf := size_lt_half hv
  obtain ⟨h1, h2, h3, h4⟩ := hv
  have hsub : v.subRange from_ count
      = Except.ok ⟨v._begin + from_, v._begin + from_ + count⟩ := by
    have hmod : (from_ + count) % WORD = from_ + count :=
      Nat.mod_eq_of_lt (by simp only [WORD] at *; omega)
    have hp : ptrAdd v._begin from_ = v._begin + from_ :=
      Nat.mod_eq_of_lt (by simp only [WORD] at *; omega)
    unfold ByteRange.subRange
    rw [if_pos ⟨by omega, by rw [hmod]; exact h⟩]
    simp only [ByteRange.cbegin, hp, ByteRange.ofPtrSize, nullptr]
    by_cases h0 : v._begin + from_ = 0
    · have hb : v._begin = 0 := by omega
      have he : v._end = 0 := h2 hb
      have hc : count = 0 := by omega
      simp [h0, hc]
    · have hq : ptrAdd (v._begin + from_) count = v._begin + from_ + count :=
        Nat.mod_eq_of_lt (by simp only [WORD] at *; omega)
      simp [h0, hq]
  have hvalid : Valid ⟨v._begin + from_, v._begin + from_ + count⟩ := by
    refine ⟨by simp, ?_, by simp only [WORD] at *; omega, by simp only [HALF] at *; omega⟩
    simp only [nullptr] at *
    intro h0
    have hb : v._begin = 0 := by omega
    have he : v._end = 0 := h2 hb
    omega
  have hsize : (ByteRange.mk (v._begin + from_) (v._begin + from_ + count)).size = count := by
    rw [size_of_valid hvalid]; simp
  refine ⟨by omega, hsub, by omega, by omega, hvalid, hsize, ?_, ?_, ?_⟩
  · intro i _
    simp only [byteAt, Nat.add_assoc]
  · unfold contents
    rw [hsize, readBytes_drop m _ _ _ (by omega), readBytes_take m _ _ _ (by omega)]
  · intro hf hc
    have he : v._begin + from_ = v._end := by omega
    rw [hsub]
    subst hc
    simp [he, ByteRange.empty]

/-- Witness of C6: bytes 5..9 of `"HelloWorld"`. -/
theorem subRange_in_range_witness :
    Valid ⟨1000, 1010⟩ ∧ 5 + 5 ≤ (ByteRange.mk 1000 1010).size ∧
      (ByteRange.mk 1000 1010).subRange 5 5 = Except.ok ⟨1000 + 5, 1000 + 5 + 5⟩ :=
  ⟨by decide, by decide,
    (subRange_in_range exampleMemory ⟨1000, 1010⟩ 5 5 (by decide) (by decide)).2.1⟩

end cc7

namespace cc7

/-- The outcome of `subRange` for `size_type` arguments: it fails exactly when
`from > size()` or the wrapped sum exceeds `size()`. -/
theorem subRange_error_iff (v : ByteRange) (from_ count : Nat) :
    v.subRange from_ count = Except.error Error.OutOfRange ↔
      from_ > v.size ∨ (from_ + count) % WORD > v.size := by
  unfold ByteRange.subRange
  by_cases h : from_ ≤ v.size ∧ (from_ + count) % WORD ≤ v.size
  · rw [if_pos h]
    constructor
    · intro h'; cases h'
    · intro h'; omega
  · rw [if_neg h]
    constructor
    · intro _; omega
    · intro _; rfl

theorem subRangeFrom_ok {v : ByteRange} {n : Nat} (hv : Valid v) (h : n ≤ v.size) :
    v.subRangeFrom n = Except.ok ⟨v._begin + n, v._end⟩ := by
  have hs := size_of_valid hv
  obtain ⟨h1, h2, h3, _⟩ := hv
  have hp : ptrAdd v._begin n = v._begin + n :=
    Nat.mod_eq_of_lt (by simp only [WORD] at *; omega)
  unfold ByteRange.subRangeFrom
  rw [if_pos h]
  simp only [ByteRange.cbegin, ByteRange.cend, hp]
  apply ofBeginEnd_ok (by omega)
  simp only [nullptr] at *
  intro h0
  exact h2 (by omega)

theorem subRangeTo_ok {v : ByteRange} {n : Nat} (hv : Valid v) (h : n ≤ v.size) :
    v.subRangeTo n = Except.ok ⟨v._begin, v._begin + n⟩ := by
  have hs := size_of_valid hv
  obtain ⟨h1, h2, h3, _⟩ := hv
  have hp : ptrAdd v._begin n = v._begin + n :=
    Nat.mod_eq_of_lt (by simp only [WORD] at *; omega)
  unfold ByteRange.subRangeTo
  rw [if_pos h]
  simp only [ByteRange.cbegin, hp]
  apply ofBeginEnd_ok (by omega)
  simp only [nullptr] at *
  intro h0
  have := h2 h0
  omega

theorem valid_sub {v : ByteRange} {b e : Nat} (hv : Valid v)
    (h1 : v._begin ≤ b) (h2 : b ≤ e) (h3 : e ≤ v._end) : Valid ⟨b, e⟩ := by
  obtain ⟨v1, v2, v3, v4⟩ := hv
  refine ⟨h2, ?_, by simp only [WORD] at *; omega, by simp only [HALF] at *; omega⟩
  simp only [nullptr] at *
  intro h0
  have hb : v._begin = 0 := by omega
  have := v2 hb
  omega

/-- C7: for a valid view `v`, `subRangeFrom(n)` fails with OutOfRange iff
`n > v.size()` and otherwise returns `[v.begin + n, v.end)`, of size
`v.size() - n` with `i`-th byte `v[n + i]`; `subRangeTo(n)` fails with
OutOfRange iff `n > v.size()` and otherwise returns `[v.begin, v.begin + n)`,
of size `n` with `i`-th byte `v[i]`.  Both are pure functions of the
receiver, which they leave as it is. -/
theorem subRangeFrom_subRangeTo_spec (m : Memory) (v : ByteRange) (n : Nat) (hv : Valid v) :
    (v.subRangeFrom n = Except.error Error.OutOfRange ↔ n > v.size) ∧
    (n ≤ v.size →
      v.subRangeFrom n = Except.ok ⟨v._begin + n, v._end⟩ ∧
      (ByteRange.mk (v._begin + n) v._end).size = v.size - n ∧
      (∀ i, i < v.size - n → byteAt m ⟨v._begin + n, v._end⟩ i = byteAt m v (n + i)) ∧
      contents m ⟨v._begin + n, v._end⟩ = (contents m v).drop n) ∧
    (v.subRangeTo n = Except.error Error.OutOfRange ↔ n > v.size) ∧
    (n ≤ v.size →
      v.subRangeTo n = Except.ok ⟨v._begin, v._begin + n⟩ ∧
      (ByteRange.mk v._begin (v._begin + n)).size = n ∧
      (∀ i, i < n → byteAt m ⟨v._begin, v._begin + n⟩ i = byteAt m v i) ∧
      contents m ⟨v._begin, v._begin + n⟩ = (contents m v).take n) := by
  have hs := size_of_valid hv
  refine ⟨?_, ?_, ?_, ?_⟩
  · constructor
    · intro he
      by_contra hn
      rw [subRangeFrom_ok hv (by omega)] at he
      cases he
    · intro hn
      unfold ByteRange.subRangeFrom
      rw [if_neg (by omega)]; rfl
  · intro hn
    have hval : Valid ⟨v._begin + n, v._end⟩ :=
      valid_sub hv (by omega) (by have := hv.1; omega) (le_refl _)
    have hsz : (ByteRange.mk (v._begin + n) v._end).size = v.size - n := by
      rw [size_of_valid hval, hs]; show v._end - (v._begin + n) = v._end - v._begin - n; omega
    refine ⟨subRangeFrom_ok hv hn, hsz, ?_, ?_⟩
    · intro i _
      simp only [byteAt, Nat.add_assoc]
    · unfold contents
      rw [hsz, readBytes_drop m _ _ _ hn]
  · constructor
    · intro he
      by_contra hn
      rw [subRangeTo_ok hv (by omega)] at he
      cases he
    · intro hn
      unfold ByteRange.subRangeTo
      rw [if_neg (by omega)]; rfl
  · intro hn
    have hval : Valid ⟨v._begin, v._begin + n⟩ :=
      valid_sub hv (le_refl _) (by simp) (by have := hv.1; omega)
    have hsz : (ByteRange.mk v._begin (v._begin + n)).size = n := by
      rw [size_of_valid hval]; simp
    refine ⟨subRangeTo_ok hv hn, hsz, ?_, ?_⟩
    · intro i _
      rfl
    · unfold contents
      rw [hsz, readBytes_take m _ _ _ hn]

/-- Witness of C7: split `"HelloWorld"` at offset 5. -/
theorem subRangeFrom_subRangeTo_spec_witness :
    Valid ⟨1000, 1010⟩ ∧
      ((ByteRange.mk 1000 1010).subRangeFrom 5 = Except.error Error.OutOfRange ↔
        5 > (ByteRange.mk 1000 1010).size) :=
  ⟨by decide,
    (subRangeFrom_subRangeTo_spec exampleMemory ⟨1000, 1010⟩ 5 (by decide)).1⟩

/-- C8: identity sub-ranges: for every valid view `v`, the unset view
included, `v.subRangeFrom(0)` and `v.subRangeTo(v.size())` both succeed and
return a view with the bounds of `v`, which compares equal to `v`. -/
theorem subRange_identity (m : Memory) (v : ByteRange) (hv : Valid v) :
    v.subRangeFrom 0 = Except.ok v ∧ v.subRangeTo v.size = Except.ok v ∧
    v.compare m v = 0 ∧ op_eq m v v = true := by
  have hs := size_of_valid hv
  have hc : v.compare m v = 0 := by
    rw [compare_eq_zero_iff]
    exact ⟨(memcmp_eq_zero_iff m _ _ _).mpr (fun _ _ => rfl), rfl⟩
  refine ⟨?_, ?_, hc, ?_⟩
  · rw [subRangeFrom_ok hv (Nat.zero_le _)]
    rfl
  · rw [subRangeTo_ok hv (le_refl _)]
    have he : v._begin + v.size = v._end := by have := hv.1; omega
    rw [he]
  · simp [op_eq, hc]

/-- Witness of C8: the unset view, both bounds null. -/
theorem subRange_identity_witness :
    Valid ByteRange.mk0 ∧
      ByteRange.mk0.subRangeFrom 0 = Except.ok ByteRange.mk0 ∧
      ByteRange.mk0.subRangeTo ByteRange.mk0.size = Except.ok ByteRange.mk0 ∧
      ByteRange.mk0.compare exampleMemory ByteRange.mk0 = 0 ∧
      op_eq exampleMemory ByteRange.mk0 ByteRange.mk0 = true :=
  ⟨by decide, subRange_identity exampleMemory ByteRange.mk0 (by decide)⟩

end cc7

namespace cc7

/-! ## In-place trimming -/

theorem removePrefix_ok {v : ByteRange} {n : Nat} (hv : Valid v) (h : n ≤ v.length) :
    v.removePrefix n = (Except.ok (), ⟨v._begin + n, v._end⟩) := by
  have hs := size_of_valid hv
  rw [length_eq_size] at h
  obtain ⟨h1, _, h3, _⟩ := hv
  have hp : ptrAdd v._begin n = v._begin + n :=
    Nat.mod_eq_of_lt (by simp only [WORD] at *; omega)
  unfold ByteRange.removePrefix
  rw [if_pos (by rw [length_eq_size]; exact h), hp]

theorem removeSuffix_ok {v : ByteRange} {n : Nat} (hv : Valid v) (h : n ≤ v.length) :
    v.removeSuffix n = (Except.ok (), ⟨v._begin, v._end - n⟩) := by
  have hs := size_of_valid hv
  rw [length_eq_size] at h
  obtain ⟨h1, _, h3, _⟩ := hv
  have hp : ptrSub v._end n = v._end - n := by
    simp only [ptrSub, WORD] at *
    omega
  unfold ByteRange.removeSuffix
  rw [if_pos (by rw [length_eq_size]; exact h), hp]

/-- C9: for a valid view `v` and `n <= v.length()`, `removePrefix(n)` succeeds,
advances only the start bound by `n` and leaves the end bound as it was, so
that the view holds the last `length - n` bytes of the original;
`removeSuffix(n)` succeeds, moves only the end bound back by `n` and leaves the
start bound as it was, so that the view holds the first `length - n` bytes. -/
theorem removePrefix_removeSuffix_in_range (m : Memory) (v : ByteRange) (n : Nat)
    (hv : Valid v) (h : n ≤ v.length) :
    (v.removePrefix n = (Except.ok (), ⟨v._begin + n, v._end⟩) ∧
      (v.removePrefix n).2._end = v._end ∧
      (v.removePrefix n).2.length = v.length - n ∧
      contents m (v.removePrefix n).2 = (contents m v).drop n) ∧
    (v.removeSuffix n = (Except.ok (), ⟨v._begin, v._end - n⟩) ∧
      (v.removeSuffix n).2._begin = v._begin ∧
      (v.removeSuffix n).2.length = v.length - n ∧
      contents m (v.removeSuffix n).2 = (contents m v).take (v.length - n)) := by
  have hs := size_of_valid hv
  have hI1 := hv.1
  have hn : n ≤ v.size := h
  have hn' : n ≤ v._end - v._begin := by omega
  have hvp : Valid ⟨v._begin + n, v._end⟩ :=
    valid_sub hv (by omega) (by omega) (le_refl _)
  have hvs : Valid ⟨v._begin, v._end - n⟩ :=
    valid_sub hv (le_refl _) (by omega) (by omega)
  have hlp : (ByteRange.mk (v._begin + n) v._end).size = v.size - n := by
    rw [size_of_valid hvp, hs]
    show v._end - (v._begin + n) = v._end - v._begin - n
    omega
  have hls : (ByteRange.mk v._begin (v._end - n)).size = v.size - n := by
    rw [size_of_valid hvs, hs]
    show v._end - n - v._begin = v._end - v._begin - n
    omega
  rw [removePrefix_ok hv h, removeSuffix_ok hv h]
  refine ⟨⟨rfl, rfl, hlp, ?_⟩, ⟨rfl, rfl, hls, ?_⟩⟩
  · show readBytes m (v._begin + n) (ByteRange.mk (v._begin + n) v._end).size = _
    unfold contents
    rw [hlp, readBytes_drop m _ _ _ hn]
  · show readBytes m v._begin (ByteRange.mk v._begin (v._end - n)).size = _
    unfold contents
    rw [hls, length_eq_size, readBytes_take m _ _ _ (by omega)]

/-- Witness of C9: over `"HelloWorld"`, `removePrefix(5)` leaves a view equal
to `"World"`. -/
theorem removePrefix_removeSuffix_in_range_witness :
    Valid ⟨1000, 1010⟩ ∧ 5 ≤ (ByteRange.mk 1000 1010).length ∧
      (ByteRange.mk 1000 1010).removePrefix 5 = (Except.ok (), ⟨1000 + 5, 1010⟩) ∧
      op_eq exampleMemory ⟨1000 + 5, 1010⟩ ⟨2000, 2005⟩ = true :=
  ⟨by decide, by decide,
    (removePrefix_removeSuffix_in_range exampleMemory ⟨1000, 1010⟩ 5
      (by decide) (by decide)).1.1,
    by decide⟩

/-- C10: for a valid view `v`, `removePrefix(n)` and `removeSuffix(n)` fail
with OutOfRange iff `n > v.length()`; a failing call leaves both bounds of `v`
as they were; `n == v.length()` succeeds and leaves an empty view. -/
theorem removePrefix_removeSuffix_error (v : ByteRange) (n : Nat) (hv : Valid v) :
    ((v.removePrefix n).1 = Except.error Error.OutOfRange ↔ n > v.length) ∧
    ((v.removeSuffix n).1 = Except.error Error.OutOfRange ↔ n > v.length) ∧
    (n > v.length → (v.removePrefix n).2 = v ∧ (v.removeSuffix n).2 = v) ∧
    (n = v.length →
      (v.removePrefix n).1 = Except.ok () ∧ (v.removePrefix n).2.empty = true ∧
      (v.removeSuffix n).1 = Except.ok () ∧ (v.removeSuffix n).2.empty = true) := by
  have hs := size_of_valid hv
  have hI1 := hv.1
  refine ⟨?_, ?_, ?_, ?_⟩
  · constructor
    · intro he
      by_contra hn
      rw [removePrefix_ok hv (by omega)] at he
      cases he
    · intro hn
      unfold ByteRange.removePrefix
      rw [if_neg (by omega)]; rfl
  · constructor
    · intro he
      by_contra hn
      rw [removeSuffix_ok hv (by omega)] at he
      cases he
    · intro hn
      unfold ByteRange.removeSuffix
      rw [if_neg (by omega)]; rfl
  · intro hn
    unfold ByteRange.removePrefix ByteRange.removeSuffix
    rw [if_neg (by omega), if_neg (by omega)]
    exact ⟨rfl, rfl⟩
  · intro hn
    have hl : v.length = v._end - v._begin := hs
    rw [removePrefix_ok hv (by omega), removeSuffix_ok hv (by omega)]
    refine ⟨rfl, ?_, rfl, ?_⟩
    · simp only [ByteRange.empty, beq_iff_eq]
      omega
    · simp only [ByteRange.empty, beq_iff_eq]
      omega

/-- Witness of C10: after `removePrefix(5)` on the 10-byte view over
`"HelloWorld"`, `removeSuffix(10)` fails and the view still has 5 bytes. -/
theorem removePrefix_removeSuffix_error_witness :
    Valid ⟨1005, 1010⟩ ∧
      (ByteRange.mk 1000 1010).removePrefix 5 = (Except.ok (), ⟨1005, 1010⟩) ∧
      10 > (ByteRange.mk 1005 1010).length ∧
      (ByteRange.mk 1005 1010).removeSuffix 10 = (Except.error Error.OutOfRange, ⟨1005, 1010⟩) ∧
      ((ByteRange.mk 1005 1010).removeSuffix 10).2 = ⟨1005, 1010⟩ ∧
      ((ByteRange.mk 1005 1010).removeSuffix 10).2.size = 5 :=
  ⟨by decide, rfl, by decide, rfl,
    ((removePrefix_removeSuffix_error ⟨1005, 1010⟩ 10 (by decide)).2.2.1 (by decide)).2,
    by decide⟩

end cc7

namespace cc7

/-! ## Element access -/

theorem ptrAdd_of_lt {p n : Nat} (h : p + n < WORD) : ptrAdd p n = p + n :=
  Nat.mod_eq_of_lt h

/-- C11: for a valid view `v`: when `i < v.size()`, `v.at(i)` and `v[i]` both
return the byte at offset `i` of the viewed storage; when `i >= v.size()`,
`v.at(i)` fails with OutOfRange (so `v.at(v.size())` fails) while `v[i]` does
not fail and returns the fixed sentinel value whatever the storage holds. -/
theorem at_and_index_spec (sentinel : Byte) (m : Memory) (v : ByteRange) (i : Nat)
    (hv : Valid v) :
    (i < v.size →
      v.at_ m i = Except.ok (byteAt m v i) ∧ v.op_index sentinel m i = byteAt m v i) ∧
    (v.size ≤ i →
      v.at_ m i = Except.error Error.OutOfRange ∧
      ∀ m₂ : Memory, v.op_index sentinel m₂ i = sentinel) ∧
    v.at_ m v.size = Except.error Error.OutOfRange := by
  have hs := size_of_valid hv
  obtain ⟨h1, _, h3, _⟩ := hv
  refine ⟨?_, ?_, ?_⟩
  · intro hi
    have hp : ptrAdd v._begin i = v._begin + i :=
      ptrAdd_of_lt (by omega)
    simp only [ByteRange.at_, ByteRange.op_index, if_pos hi, hp, byteAt, and_self]
  · intro hi
    have hn : ¬ i < v.size := by omega
    refine ⟨?_, fun m₂ => ?_⟩
    · simp only [ByteRange.at_, if_neg hn]; rfl
    · simp only [ByteRange.op_index, if_neg hn]
  · simp only [ByteRange.at_, if_neg (Nat.lt_irrefl _)]; rfl

/-- Witness of C11: index 5 of the 5-byte view over `"World"` is out of range
and index 0 is the byte `W`. -/
theorem at_and_index_spec_witness :
    Valid ⟨2000, 2005⟩ ∧
    (ByteRange.mk 2000 2005).at_ exampleMemory 0 = Except.ok 87 ∧
    (ByteRange.mk 2000 2005).op_index 255 exampleMemory 0 = 87 ∧
    (ByteRange.mk 2000 2005).op_index 255 exampleMemory 5 = 255 ∧
    (ByteRange.mk 2000 2005).at_ exampleMemory (ByteRange.mk 2000 2005).size
      = Except.error Error.OutOfRange :=
  ⟨by decide, rfl, by decide, by decide,
    (at_and_index_spec 255 exampleMemory ⟨2000, 2005⟩ 5 (by decide)).2.2⟩

/-! ## Construction and assignment from a pair of bounds -/

/-- The check `_validateBeginEnd` raises exactly InvalidArgument, and exactly
on the pairs with `begin > end` or a null `begin` with a non-null `end`. -/
theorem validate_error_iff (b e : Nat) :
    ByteRange._validateBeginEnd b e = Except.error Error.InvalidArgument ↔
      (b > e ∨ (b = nullptr ∧ e ≠ nullptr)) := by
  unfold ByteRange._validateBeginEnd
  by_cases h : b > e ∨ (b = nullptr ∧ e ≠ nullptr)
  · rw [if_pos h]
    exact ⟨fun _ => h, fun _ => rfl⟩
  · rw [if_neg h]
    constructor
    · intro h'; cases h'
    · intro h'; exact absurd h' h

/-- C12: constructing a view from a pointer pair `(begin, end)` fails with
InvalidArgument iff `begin > end` or `begin` is null while `end` is not; every
accepted pair gives the view with these bounds, with
`length() == size() == end - begin` and `empty() == (begin == end)`. -/
theorem ofBeginEnd_spec (b e : Nat) (hb : b < WORD) (he : e < WORD) :
    (ByteRange.ofBeginEnd b e = Except.error Error.InvalidArgument ↔
      (b > e ∨ (b = nullptr ∧ e ≠ nullptr))) ∧
    (¬ (b > e ∨ (b = nullptr ∧ e ≠ nullptr)) →
      ByteRange.ofBeginEnd b e = Except.ok ⟨b, e⟩ ∧
      (ByteRange.mk b e).length = e - b ∧ (ByteRange.mk b e).size = e - b ∧
      ((ByteRange.mk b e).empty = true ↔ b = e)) := by
  constructor
  · unfold ByteRange.ofBeginEnd ByteRange._validateBeginEnd
    by_cases h : b > e ∨ (b = nullptr ∧ e ≠ nullptr)
    · rw [if_pos h]
      exact ⟨fun _ => h, fun _ => rfl⟩
    · rw [if_neg h]
      constructor
      · intro h'; cases h'
      · intro h'; exact absurd h' h
  · intro h
    have hle : b ≤ e := by
      by_contra hc
      exact h (Or.inl (by omega))
    have hsz : ptrDiff e b = e - b := by
      simp only [ptrDiff, WORD] at *
      omega
    refine ⟨?_, hsz, hsz, ?_⟩
    · unfold ByteRange.ofBeginEnd ByteRange._validateBeginEnd
      rw [if_neg h]
    · simp [ByteRange.empty]

/-- Witness of C12: with `p = 1000`, the pair `begin = p + 5`, `end = p` is
rejected with InvalidArgument. -/
theorem ofBeginEnd_spec_witness :
    1000 + 5 < WORD ∧ 1000 < WORD ∧
    ByteRange.ofBeginEnd (1000 + 5) 1000 = Except.error Error.InvalidArgument :=
  ⟨by decide, by decide,
    (ofBeginEnd_spec (1000 + 5) 1000 (by decide) (by decide)).1.mpr (Or.inl (by decide))⟩

/-- The pointer-pair `assign` leaves the receiver as it was whenever it
raises. -/
theorem assign_error_unchanged (v : ByteRange) (b e : Nat) (err : Error)
    (h : (v.assign b e).1 = Except.error err) : (v.assign b e).2 = v := by
  unfold ByteRange.assign at h ⊢
  cases hval : ByteRange._validateBeginEnd b e with
  | ok u => rw [hval] at h; cases h
  | error err₂ => rfl

/-- C13: on the valid view `[1000, 1010)` the rejected pair `(1005, 1000)`
makes both `assign` overloads raise InvalidArgument; the pointer-pair overload
leaves the bounds `[1000, 1010)`, the iterator-pair overload leaves the
receiver with the rejected bounds `[1005, 1000)`, which violate I1. -/
theorem assignIter_commits_rejected_pair :
    Valid ⟨1000, 1010⟩ ∧
    (ByteRange.mk 1000 1010).assign 1005 1000
      = (Except.error Error.InvalidArgument, ⟨1000, 1010⟩) ∧
    (ByteRange.mk 1000 1010).assignIter 1005 1000
      = (Except.error Error.InvalidArgument, ⟨1005, 1000⟩) ∧
    ((ByteRange.mk 1000 1010).assignIter 1005 1000).2 ≠ ⟨1000, 1010⟩ ∧
    ¬ Inv ((ByteRange.mk 1000 1010).assignIter 1005 1000).2 :=
  ⟨by decide, rfl, rfl, by decide, by decide⟩

end cc7

namespace cc7

/-! ## Invariants I1 and I2 -/

theorem inv_of_validate {b e : Nat} (h : ByteRange._validateBeginEnd b e = Except.ok ()) :
    Inv ⟨b, e⟩ := by
  unfold ByteRange._validateBeginEnd at h
  by_cases hc : b > e ∨ (b = nullptr ∧ e ≠ nullptr)
  · rw [if_pos hc] at h; cases h
  · constructor
    · show b ≤ e
      by_contra hlt
      exact hc (Or.inl (by omega))
    · intro hb
      by_contra hne
      exact hc (Or.inr ⟨hb, hne⟩)

theorem inv_of_ofBeginEnd {b e : Nat} {r : ByteRange}
    (h : ByteRange.ofBeginEnd b e = Except.ok r) : Inv r := by
  unfold ByteRange.ofBeginEnd at h
  cases hval : ByteRange._validateBeginEnd b e with
  | ok u =>
    rw [hval] at h
    cases h
    exact inv_of_validate hval
  | error err => rw [hval] at h; cases h

theorem inv_ptr_size {p n : Nat} (h : p = nullptr ∨ p + n < WORD) :
    Inv ⟨p, if p ≠ nullptr then ptrAdd p n else nullptr⟩ := by
  by_cases hp : p = nullptr
  · rw [if_neg (by simpa using hp)]
    subst hp
    exact ⟨le_refl _, fun _ => rfl⟩
  · rw [if_pos hp, ptrAdd_of_lt (h.resolve_left hp)]
    exact ⟨Nat.le_add_right _ _, fun h0 => absurd h0 hp⟩

/-- C14, as the claim states it, fails: the constructor
`ByteRange(ptr, size)` returns without error for `ptr = 1000` and
`size = 2^64 - 1`, and the view it gives, `[1000, 999)`, violates I1. -/
theorem ofPtrSize_breaks_I1 :
    ByteRange.ofPtrSize 1000 18446744073709551615 = ⟨1000, 999⟩ ∧
    ¬ Inv (ByteRange.ofPtrSize 1000 18446744073709551615) := by
  decide

/-- C14, amended: I1 and I2 hold after default construction, after every
constructor or `assign` from a pair of bounds that returns without error,
after every constructor or `assign` from a pointer and a length when the
pointer is null or the sum does not pass the last address, from a string and
from another view satisfying them; `clear`, `removePrefix`, `removeSuffix`, `subRangeFrom` and `subRangeTo`,
for all argument values, and `subRange` for arguments whose sum does not pass
`2^64 - 1`, applied to a view satisfying them leave the receiver and the
returned view satisfying them whenever they return without error. -/
theorem invariants_preserved (v : ByteRange) (hv : Inv v) (hp : v._end < WORD) :
    Inv ByteRange.mk0 ∧
    (∀ b e r, ByteRange.ofBeginEnd b e = Except.ok r → Inv r) ∧
    (∀ b e r, ByteRange.ofIter b e = Except.ok r → Inv r) ∧
    (∀ b e, (v.assign b e).1 = Except.ok () → Inv (v.assign b e).2) ∧
    (∀ b e, (v.assignIter b e).1 = Except.ok () → Inv (v.assignIter b e).2) ∧
    (∀ p n, (p = nullptr ∨ p + n < WORD) →
      Inv (ByteRange.ofPtrSize p n) ∧ Inv (ByteRange.ofVoidPtrSize p n) ∧
      Inv (ByteRange.ofCStr p n) ∧ Inv (v.assignPtrSize p n) ∧
      Inv (v.assignVoidPtrSize p n) ∧ Inv (v.assignCStr p n) ∧
      Inv (v.assignCStrSize p n)) ∧
    (∀ s : StdString, s.data ≠ nullptr → s.data + s.length < WORD →
      Inv (ByteRange.ofString s) ∧ Inv (v.assignString s)) ∧
    (∀ r, Inv r → Inv (ByteRange.copy r) ∧ Inv (v.assignRange r)) ∧
    Inv v.clear ∧
    (∀ n, (v.removePrefix n).1 = Except.ok () → Inv (v.removePrefix n).2) ∧
    (∀ n, (v.removeSuffix n).1 = Except.ok () → Inv (v.removeSuffix n).2) ∧
    (∀ n r, v.subRangeFrom n = Except.ok r → Inv r) ∧
    (∀ n r, v.subRangeTo n = Except.ok r → Inv r) ∧
    (∀ from_ count r, from_ + count < WORD →
      v.subRange from_ count = Except.ok r → Inv r) := by
  obtain ⟨hI1, hI2⟩ := hv
  have hsz : v.size = v._end - v._begin := by
    simp only [ByteRange.size, ptrDiff, WORD] at *
    omega
  have hlen : v.length = v._end - v._begin := hsz
  refine ⟨⟨le_refl _, fun _ => rfl⟩, fun b e r h => inv_of_ofBeginEnd h, ?_, ?_, ?_, ?_, ?_,
    fun r hr => ⟨hr, hr⟩, ⟨le_refl _, fun _ => rfl⟩, ?_, ?_, ?_, ?_, ?_⟩
  · intro b e r h
    exact inv_of_ofBeginEnd h
  · intro b e h
    unfold ByteRange.assign at h ⊢
    cases hval : ByteRange._validateBeginEnd b e with
    | ok u => exact inv_of_validate hval
    | error err => rw [hval] at h; cases h
  · intro b e h
    exact inv_of_validate h
  · intro p n h
    exact ⟨inv_ptr_size h, inv_ptr_size h, inv_ptr_size h, inv_ptr_size h, inv_ptr_size h,
      inv_ptr_size h, inv_ptr_size h⟩
  · intro s hs h
    have hi : Inv ⟨s.data, ptrAdd s.data s.length⟩ := by
      rw [ptrAdd_of_lt h]
      exact ⟨Nat.le_add_right _ _, fun h0 => absurd h0 hs⟩
    exact ⟨hi, hi⟩
  · intro n h
    unfold ByteRange.removePrefix at h ⊢
    by_cases hn : n ≤ v.length
    · rw [if_pos hn]
      have hq : ptrAdd v._begin n = v._begin + n := ptrAdd_of_lt (by omega)
      constructor
      · show ptrAdd v._begin n ≤ v._end
        rw [hq]; omega
      · show ptrAdd v._begin n = nullptr → v._end = nullptr
        rw [hq]
        intro h0
        simp only [nullptr] at *
        exact hI2 (by omega)
    · rw [if_neg hn] at h; cases h
  · intro n h
    unfold ByteRange.removeSuffix at h ⊢
    by_cases hn : n ≤ v.length
    · rw [if_pos hn]
      have hq : ptrSub v._end n = v._end - n := by
        simp only [ptrSub, WORD] at *
        omega
      constructor
      · show v._begin ≤ ptrSub v._end n
        rw [hq]; omega
      · show v._begin = nullptr → ptrSub v._end n = nullptr
        rw [hq]
        intro h0
        have := hI2 h0
        simp only [nullptr] at *
        omega
    · rw [if_neg hn] at h; cases h
  · intro n r h
    unfold ByteRange.subRangeFrom at h
    by_cases hn : n ≤ v.size
    · rw [if_pos hn] at h; exact inv_of_ofBeginEnd h
    · rw [if_neg hn] at h; cases h
  · intro n r h
    unfold ByteRange.subRangeTo at h
    by_cases hn : n ≤ v.size
    · rw [if_pos hn] at h; exact inv_of_ofBeginEnd h
    · rw [if_neg hn] at h; cases h
  · intro from_ count r hsum h
    unfold ByteRange.subRange at h
    by_cases hc : from_ ≤ v.size ∧ (from_ + count) % WORD ≤ v.size
    · rw [if_pos hc] at h
      have hmod : (from_ + count) % WORD = from_ + count := Nat.mod_eq_of_lt hsum
      rw [hmod] at hc
      have hq : ptrAdd v.cbegin from_ = v._begin + from_ :=
        ptrAdd_of_lt (by simp only [ByteRange.cbegin]; omega)
      rw [hq] at h
      cases h
      exact inv_ptr_size (Or.inr (by omega))
    · rw [if_neg hc] at h; cases h

/-- Witness of C14: the view over `"HelloWorld"`. -/
theorem invariants_preserved_witness :
    Inv ⟨1000, 1010⟩ ∧ (ByteRange.mk 1000 1010)._end < WORD ∧
    ((ByteRange.mk 1000 1010).removePrefix 5).1 = Except.ok () ∧
    Inv ((ByteRange.mk 1000 1010).removePrefix 5).2 :=
  ⟨by decide, by decide, rfl,
    (invariants_preserved ⟨1000, 1010⟩ (by decide) (by decide)).2.2.2.2.2.2.2.2.2.1 5 rfl⟩

end cc7

namespace cc7

/-! ## Strings -/

theorem readBytes_of_stored (m : Memory) (p : Nat) (l : List Byte)
    (h : ∀ i, i < l.length → l[i]? = some (m (p + i))) : readBytes m p l.length = l := by
  apply List.ext_getElem?
  intro i
  by_cases hi : i < l.length
  · rw [readBytes_getElem? m l.length p i hi, h i hi]
  · rw [List.getElem?_eq_none (by rw [readBytes_length]; omega),
      List.getElem?_eq_none (by omega)]

theorem size_of_le {b e : Nat} (h : b ≤ e) (he : e < WORD) :
    (ByteRange.mk b e).size = e - b := by
  simp only [ByteRange.size, ptrDiff, WORD] at *
  omega

/-- C15: round trip: for every string `b` held in storage, the empty string
and strings with NUL bytes included, `CopyToString(MakeRange(b)) == b` and
`MakeRange(b).size() == b.length()`. -/
theorem copyToString_makeRange (m : Memory) (b : StdString)
    (hs : Stored m b) (hfit : b.data + b.length < WORD) :
    CopyToString m (MakeRange b) = b.chars ∧ (MakeRange b).size = b.length := by
  have hsz : (MakeRange b).size = b.length := by
    simp only [MakeRange, ByteRange.ofString]
    rw [ptrAdd_of_lt hfit, size_of_le (Nat.le_add_right _ _) hfit]
    omega
  refine ⟨?_, hsz⟩
  unfold CopyToString
  rw [hsz]
  exact readBytes_of_stored m b.data b.chars hs

/-- Witness of C15: the three-character string `01 00 00`, which contains NUL
bytes, at address 3000 of the example storage, and the empty string. -/
theorem copyToString_makeRange_witness :
    Stored exampleMemory ⟨3000, [1, 0, 0]⟩ ∧
    (CopyToString exampleMemory (MakeRange ⟨3000, [1, 0, 0]⟩) = [1, 0, 0] ∧
      (MakeRange ⟨3000, [1, 0, 0]⟩).size = 3) ∧
    (CopyToString exampleMemory (MakeRange ⟨1000, []⟩) = [] ∧
      (MakeRange ⟨1000, []⟩).size = 0) :=
  ⟨by decide,
    copyToString_makeRange exampleMemory ⟨3000, [1, 0, 0]⟩ (by decide) (by decide),
    copyToString_makeRange exampleMemory ⟨1000, []⟩ (by decide) (by decide)⟩

/-! ## Iteration -/

theorem visitReverse_same (m : Memory) (p : Nat) (fuel : Nat) :
    visitReverse m p p fuel = some [] := by
  cases fuel <;> simp [visitReverse]

/-- Forward traversal of a valid view visits its contents. -/
theorem visitForward_readBytes (m : Memory) (n : Nat) :
    ∀ p, p + n < WORD → visitForward m p (p + n) n = some (readBytes m p n) := by
  induction n with
  | zero => intro p _; simp [visitForward, readBytes]
  | succ n ih =>
    intro p hp
    have hne : p ≠ p + (n + 1) := by omega
    have hq : ptrAdd p 1 = p + 1 := ptrAdd_of_lt (by omega)
    have hr : p + (n + 1) = (p + 1) + n := by omega
    simp only [visitForward, if_neg hne, hq, readBytes]
    rw [hr, ih (p + 1) (by omega)]
    rfl

/-- C16: `rbegin()` and `rend()` (and `crbegin()`, `crend()`) of every view are
the same reverse iterator, so the traversal from `rbegin()` up to `rend()`
visits no byte at all, with any number of steps allowed; over `"HelloWorld"`
the forward traversal visits the ten bytes, whose mirror image is not the
empty sequence that the reverse traversal visits. -/
theorem reverse_traversal_visits_nothing :
    (∀ v : ByteRange, v.rbegin = v.rend ∧ v.crbegin = v.crend) ∧
    (∀ (m : Memory) (v : ByteRange) (fuel : Nat),
      visitReverse m v.rbegin v.rend fuel = some [] ∧
      visitReverse m v.crbegin v.crend fuel = some []) ∧
    Valid ⟨1000, 1010⟩ ∧ (ByteRange.mk 1000 1010).size = 10 ∧
    visitForward exampleMemory (ByteRange.mk 1000 1010).cbegin (ByteRange.mk 1000 1010).cend 10
      = some [72, 101, 108, 108, 111, 87, 111, 114, 108, 100] ∧
    visitReverse exampleMemory (ByteRange.mk 1000 1010).rbegin (ByteRange.mk 1000 1010).rend 10
      = some [] ∧
    visitReverse exampleMemory (ByteRange.mk 1000 1010).rbegin (ByteRange.mk 1000 1010).rend 10
      ≠ some [100, 108, 114, 111, 87, 111, 108, 108, 101, 72] :=
  ⟨fun _ => ⟨rfl, rfl⟩,
    fun m v fuel => ⟨visitReverse_same m _ fuel, visitReverse_same m _ fuel⟩,
    by decide, by decide, by decide, by decide, by decide⟩

/-! ## Construction and assignment from a pointer and a length -/

/-- C17: construction and assignment from `(pointer, length)` are total: for a
non-null pointer `p` and a length `n` the view has start `p`, end `p + n` (the
pointer sum, equal to the integer sum when that is an address) and
`size() == n`; for a null pointer and any `n` the result is the unset view,
with `size() == 0` and `empty()` true; `assign(pointer, length)` gives the
bounds of the corresponding constructor. -/
theorem ofPtrSize_spec (v : ByteRange) (p n : Nat) (hn : n < WORD) :
    (p ≠ nullptr →
      (ByteRange.ofPtrSize p n)._begin = p ∧
      (ByteRange.ofPtrSize p n)._end = ptrAdd p n ∧
      (p + n < WORD → (ByteRange.ofPtrSize p n)._end = p + n) ∧
      (ByteRange.ofPtrSize p n).size = n ∧
      ByteRange.ofVoidPtrSize p n = ByteRange.ofPtrSize p n) ∧
    (ByteRange.ofPtrSize nullptr n = ByteRange.mk0 ∧
      ByteRange.ofVoidPtrSize nullptr n = ByteRange.mk0 ∧
      ByteRange.mk0._begin = nullptr ∧ ByteRange.mk0._end = nullptr ∧
      ByteRange.mk0.size = 0 ∧ ByteRange.mk0.empty = true) ∧
    (v.assignPtrSize p n = ByteRange.ofPtrSize p n ∧
      v.assignVoidPtrSize p n = ByteRange.ofVoidPtrSize p n ∧
      v.assignCStrSize p n = ByteRange.ofPtrSize p n) := by
  refine ⟨?_, ?_, ?_⟩
  · intro hne
    have he : (ByteRange.ofPtrSize p n)._end = ptrAdd p n := by
      simp only [ByteRange.ofPtrSize, if_pos hne]
    refine ⟨rfl, he, ?_, ?_, ?_⟩
    · intro hfit
      rw [he, ptrAdd_of_lt hfit]
    · simp only [ByteRange.size, he]
      show ptrDiff (ptrAdd p n) p = n
      simp only [ptrDiff, ptrAdd, WORD] at *
      omega
    · simp only [ByteRange.ofVoidPtrSize, ByteRange.ofPtrSize, if_pos hne]
  · refine ⟨rfl, rfl, rfl, rfl, by decide, by decide⟩
  · refine ⟨?_, rfl, ?_⟩
    · simp only [ByteRange.assignPtrSize, ByteRange.ofPtrSize, nullptr]
    · simp only [ByteRange.assignCStrSize, ByteRange.ofPtrSize, nullptr]

/-- Witness of C17: pointer 1000 with length 10, over `"HelloWorld"`. -/
theorem ofPtrSize_spec_witness :
    10 < WORD ∧
    ByteRange.mk0.assignPtrSize 1000 10 = ByteRange.ofPtrSize 1000 10 ∧
    ByteRange.ofPtrSize 1000 10 = ⟨1000, 1010⟩ :=
  ⟨by decide,
    (ofPtrSize_spec ByteRange.mk0 1000 10 (by decide)).2.2.1,
    by decide⟩

end cc7

namespace cc7

/-! ## The size tie-break of `compare` -/

theorem size_lt_word (v : ByteRange) : v.size < WORD :=
  Nat.mod_lt _ (by decide)

/-- C18, as the claim states it, fails: the unset view (size 0) and the view
`[1, 2^63 + 1)` (size `2^63`) agree on their first `min(ts, os) = 0` bytes and
`ts < os`, yet `compare` returns `1`, not `-1`. -/
theorem tiebreak_wrong_beyond_half :
    ByteRange.mk0.size = 0 ∧ (ByteRange.mk 1 9223372036854775809).size = HALF ∧
    ByteRange.mk0.size < (ByteRange.mk 1 9223372036854775809).size ∧
    (∀ j, j < min ByteRange.mk0.size (ByteRange.mk 1 9223372036854775809).size →
      byteAt exampleMemory ByteRange.mk0 j = byteAt exampleMemory ⟨1, 9223372036854775809⟩ j) ∧
    ByteRange.mk0.compare exampleMemory ⟨1, 9223372036854775809⟩ = 1 ∧
    ByteRange.mk0.compare exampleMemory ⟨1, 9223372036854775809⟩ ≠ -1 := by
  decide

/-- C18, amended: for every pair of views whose first `min(ts, os)` bytes are
equal and whose sizes differ, `compare` returns exactly `-1` when `ts < os`
and `os - ts < 2^63`, and exactly `1` when `ts > os` and `ts - os <= 2^63`;
both hold for all views of at most `PTRDIFF_MAX` bytes. -/
theorem tiebreak_exact (m : Memory) (a b : ByteRange)
    (hbytes : ∀ j, j < min a.size b.size → byteAt m a j = byteAt m b j)
    (hne : a.size ≠ b.size) :
    (a.size < b.size → b.size - a.size < HALF → a.compare m b = -1) ∧
    (b.size < a.size → a.size - b.size ≤ HALF → a.compare m b = 1) ∧
    (a.size < HALF → b.size < HALF →
      (a.size < b.size → a.compare m b = -1) ∧ (b.size < a.size → a.compare m b = 1)) := by
  have h0 : memcmp m a._begin b._begin (min a.size b.size) = 0 :=
    (memcmp_eq_zero_iff m _ _ _).mpr hbytes
  have ha := size_lt_word a
  have hb := size_lt_word b
  have hc : a.compare m b
      = ((((b.size + (WORD - a.size)) % WORD / HALF : Nat) : Int) * 2) - 1 := by
    simp only [ByteRange.compare, ByteRange.data, h0, true_and]
    rw [if_pos (fun h => hne h.symm)]
  rw [hc]
  simp only [WORD, HALF] at *
  refine ⟨?_, ?_, ?_⟩
  · intro h1 h2; omega
  · intro h1 h2; omega
  · intro h1 h2
    constructor
    · intro h3; omega
    · intro h3; omega

/-- Witness of C18: `{01}` against `{01, 02}`. -/
theorem tiebreak_exact_witness :
    (∀ j, j < min (ByteRange.mk 3000 3001).size (ByteRange.mk 3100 3102).size →
      byteAt exampleMemory ⟨3000, 3001⟩ j = byteAt exampleMemory ⟨3100, 3102⟩ j) ∧
    (ByteRange.mk 3000 3001).size ≠ (ByteRange.mk 3100 3102).size ∧
    (ByteRange.mk 3000 3001).compare exampleMemory ⟨3100, 3102⟩ = -1 :=
  ⟨by decide, by decide,
    (tiebreak_exact exampleMemory ⟨3000, 3001⟩ ⟨3100, 3102⟩ (by decide) (by decide)).1
      (by decide) (by decide)⟩

end cc7

namespace cc7

/-! ## `subRange` against the one-sided sub-ranges -/

theorem subRange_ok {v : ByteRange} {from_ count : Nat} (hv : Valid v)
    (h : from_ + count ≤ v.size) :
    v.subRange from_ count = Except.ok ⟨v._begin + from_, v._begin + from_ + count⟩ := by
  have hs := size_of_valid hv
  obtain ⟨h1, h2, h3, _⟩ := hv
  have hmod : (from_ + count) % WORD = from_ + count :=
    Nat.mod_eq_of_lt (by omega)
  have hp : ptrAdd v._begin from_ = v._begin + from_ := ptrAdd_of_lt (by omega)
  unfold ByteRange.subRange
  rw [if_pos ⟨by omega, by rw [hmod]; exact h⟩]
  simp only [ByteRange.cbegin, hp, ByteRange.ofPtrSize, nullptr]
  by_cases h0 : v._begin + from_ = 0
  · have hb : v._begin = 0 := by omega
    have he : v._end = 0 := h2 hb
    have hc : count = 0 := by omega
    simp [h0, hc]
  · have hq : ptrAdd (v._begin + from_) count = v._begin + from_ + count :=
      ptrAdd_of_lt (by omega)
    simp [h0, hq]

/-- When the sum `from + count` does not wrap, `subRange` is the composition
of `subRangeFrom` and `subRangeTo`, outcome included. -/
theorem subRange_eq_composed_of_no_wrap (v : ByteRange) (from_ count : Nat)
    (hv : Valid v) (hsum : from_ + count < WORD) :
    v.subRange from_ count = subRangeComposed v from_ count := by
  have hs := size_of_valid hv
  have hI1 := hv.1
  unfold subRangeComposed
  by_cases hf : from_ ≤ v.size
  · have hv1 : Valid ⟨v._begin + from_, v._end⟩ :=
      valid_sub hv (by omega) (by omega) (le_refl _)
    have hs1 : (ByteRange.mk (v._begin + from_) v._end).size = v.size - from_ := by
      rw [size_of_valid hv1, hs]
      show v._end - (v._begin + from_) = v._end - v._begin - from_
      omega
    rw [subRangeFrom_ok hv hf]
    dsimp only
    by_cases hc : from_ + count ≤ v.size
    · rw [subRange_ok hv hc, subRangeTo_ok hv1 (by omega)]
    · have hto : (ByteRange.mk (v._begin + from_) v._end).subRangeTo count = out_of_range := by
        unfold ByteRange.subRangeTo
        rw [if_neg (by omega)]
      rw [hto]
      unfold ByteRange.subRange
      rw [Nat.mod_eq_of_lt hsum, if_neg (by omega)]
  · have hfrom : v.subRangeFrom from_ = out_of_range := by
      unfold ByteRange.subRangeFrom
      rw [if_neg hf]
    rw [hfrom]
    unfold ByteRange.subRange
    rw [if_neg (fun h => hf h.1)]
    rfl

/-- C19: on the valid view `[1000, 1010)` with `from = 5` and
`count = 2^64 - 3`, `subRangeFrom(5)` succeeds and `subRangeTo(count)` on its
result fails with OutOfRange, yet `subRange(5, count)` returns without error,
and the view it returns, `[1005, 1002)`, does not lie within the receiver. -/
theorem subRange_differs_from_composition :
    Valid ⟨1000, 1010⟩ ∧ 5 < WORD ∧ 18446744073709551613 < WORD ∧
    (ByteRange.mk 1000 1010).subRangeFrom 5 = Except.ok ⟨1005, 1010⟩ ∧
    (ByteRange.mk 1005 1010).subRangeTo 18446744073709551613
      = Except.error Error.OutOfRange ∧
    subRangeComposed ⟨1000, 1010⟩ 5 18446744073709551613 = Except.error Error.OutOfRange ∧
    (ByteRange.mk 1000 1010).subRange 5 18446744073709551613 = Except.ok ⟨1005, 1002⟩ ∧
    ¬ Inv ⟨1005, 1002⟩ :=
  ⟨by decide, by decide, by decide, rfl, rfl, rfl, rfl, by decide⟩

/-! ## In-place trimming against the sub-range operations -/

/-- C20: for a valid view `v`: `removePrefix(n)` fails exactly when
`v.subRangeFrom(n)` fails and otherwise leaves `v` with the bounds of
`v.subRangeFrom(n)`; `removeSuffix(n)` fails exactly when `n > v.size()`, which
is when `v.subRangeTo(v.size() - n)`, with the `size_type` difference, fails,
and otherwise leaves `v` with the bounds of `v.subRangeTo(v.size() - n)`. -/
theorem trimming_agrees_with_subRanges (v : ByteRange) (n : Nat) (hv : Valid v) :
    ((v.removePrefix n).1 = Except.error Error.OutOfRange ↔
      v.subRangeFrom n = Except.error Error.OutOfRange) ∧
    (n ≤ v.size →
      (v.removePrefix n).1 = Except.ok () ∧
      v.subRangeFrom n = Except.ok (v.removePrefix n).2) ∧
    ((v.removeSuffix n).1 = Except.error Error.OutOfRange ↔ n > v.size) ∧
    (n < WORD →
      ((v.removeSuffix n).1 = Except.error Error.OutOfRange ↔
        v.subRangeTo ((v.size + (WORD - n)) % WORD) = Except.error Error.OutOfRange)) ∧
    (n ≤ v.size →
      (v.removeSuffix n).1 = Except.ok () ∧
      v.subRangeTo (v.size - n) = Except.ok (v.removeSuffix n).2) := by
  have hs := size_of_valid hv
  have hI1 := hv.1
  have hw := size_lt_word v
  have hpre_ok : n ≤ v.size → v.removePrefix n = (Except.ok (), ⟨v._begin + n, v._end⟩) :=
    fun h => removePrefix_ok hv h
  have hsuf_ok : n ≤ v.size → v.removeSuffix n = (Except.ok (), ⟨v._begin, v._end - n⟩) :=
    fun h => removeSuffix_ok hv h
  have hpre_err : ¬ n ≤ v.size → v.removePrefix n = (Except.error Error.OutOfRange, v) := by
    intro h
    unfold ByteRange.removePrefix
    rw [if_neg (show ¬ n ≤ v.length from h)]; rfl
  have hsuf_err : ¬ n ≤ v.size → v.removeSuffix n = (Except.error Error.OutOfRange, v) := by
    intro h
    unfold ByteRange.removeSuffix
    rw [if_neg (show ¬ n ≤ v.length from h)]; rfl
  have hto_err : ∀ k, ¬ k ≤ v.size → v.subRangeTo k = Except.error Error.OutOfRange := by
    intro k h
    unfold ByteRange.subRangeTo
    rw [if_neg h]; rfl
  refine ⟨?_, ?_, ?_, ?_, ?_⟩
  · by_cases h : n ≤ v.size
    · rw [hpre_ok h, subRangeFrom_ok hv h]
      constructor <;> intro h' <;> cases h'
    · rw [hpre_err h]
      have : v.subRangeFrom n = Except.error Error.OutOfRange := by
        unfold ByteRange.subRangeFrom
        rw [if_neg h]; rfl
      rw [this]
      exact ⟨fun _ => rfl, fun _ => rfl⟩
  · intro h
    rw [hpre_ok h, subRangeFrom_ok hv h]
    exact ⟨rfl, rfl⟩
  · by_cases h : n ≤ v.size
    · rw [hsuf_ok h]
      constructor
      · intro h'; cases h'
      · intro h'; omega
    · rw [hsuf_err h]
      exact ⟨fun _ => by omega, fun _ => rfl⟩
  · intro hn
    by_cases h : n ≤ v.size
    · have hk : (v.size + (WORD - n)) % WORD = v.size - n := by
        simp only [WORD] at *
        omega
      rw [hsuf_ok h, hk, subRangeTo_ok hv (by omega)]
      constructor <;> intro h' <;> cases h'
    · have hk : ¬ (v.size + (WORD - n)) % WORD ≤ v.size := by
        simp only [WORD] at *
        omega
      rw [hsuf_err h, hto_err _ hk]
      exact ⟨fun _ => rfl, fun _ => rfl⟩
  · intro h
    rw [hsuf_ok h, subRangeTo_ok hv (by omega)]
    refine ⟨rfl, ?_⟩
    have he : v._begin + (v.size - n) = v._end - n := by omega
    rw [he]

/-- Witness of C20: `removePrefix(5)` and `subRangeFrom(5)` on the view over
`"HelloWorld"`. -/
theorem trimming_agrees_with_subRanges_witness :
    Valid ⟨1000, 1010⟩ ∧
    ((ByteRange.mk 1000 1010).removePrefix 5).1 = Except.ok () ∧
    (ByteRange.mk 1000 1010).subRangeFrom 5
      = Except.ok ((ByteRange.mk 1000 1010).removePrefix 5).2 :=
  ⟨by decide,
    (trimming_agrees_with_subRanges ⟨1000, 1010⟩ 5 (by decide)).2.1 (by decide)⟩

end cc7
